import Mathlib

/-!
Shallow embedding of the indicator / signal / timeframe-selection core of
`src/main.py` (functions `calculate_rsi`, `calculate_stochrsi`,
`calculate_atr`, `get_trade_signal`, `analyze_best_timeframe`).

Python floats are modelled by `PFloat`: an exact rational together with the
IEEE special values `nan`, `inf`, `ninf` that the pandas pipeline can
produce (0/0 → nan, x/0 → ±inf, comparisons with nan are false).  Signed
zero is not modelled; on the data handled here it is observationally
equivalent.  Python `None` is modelled by `Option`.

Rational arithmetic is written with small `mkRat`-based wrappers
(`qadd`, `qsub`, `qmul`, `qdiv`, …).  Each wrapper is proved equal to the
corresponding standard operator on `ℚ` (`qadd_eq` etc.), so the embedding
is extensionally ordinary rational arithmetic; the wrappers only keep the
definitions evaluable by `decide`.
-/

/-- `(n : ℚ)` as an evaluable definition. -/
def qnat (n : ℕ) : ℚ := mkRat (Int.ofNat n) 1

/-- `(z : ℚ)` as an evaluable definition. -/
def qint (z : ℤ) : ℚ := mkRat z 1

/-- Rational addition. -/
def qadd (a b : ℚ) : ℚ :=
  mkRat (a.num * (b.den : ℤ) + b.num * (a.den : ℤ)) (a.den * b.den)

/-- Rational negation. -/
def qneg (a : ℚ) : ℚ := mkRat (-a.num) a.den

/-- Rational subtraction. -/
def qsub (a b : ℚ) : ℚ := qadd a (qneg b)

/-- Rational multiplication. -/
def qmul (a b : ℚ) : ℚ := mkRat (a.num * b.num) (a.den * b.den)

/-- Rational division (`a / 0 = 0`, as in Lean's `ℚ`). -/
def qdiv (a b : ℚ) : ℚ :=
  mkRat (a.num * (b.den : ℤ) * b.num.sign) (a.den * b.num.natAbs)

/-- Minimum of two rationals. -/
def qmin (a b : ℚ) : ℚ := if a ≤ b then a else b

/-- Maximum of two rationals. -/
def qmax (a b : ℚ) : ℚ := if a ≤ b then b else a

/-- Absolute value of a rational. -/
def qabs (a : ℚ) : ℚ := if a < 0 then qneg a else a

/-- Model of a Python/pandas float value: a real rational or a special
IEEE value. -/
inductive PFloat where
  | nan : PFloat
  | inf : PFloat
  | ninf : PFloat
  | val : ℚ → PFloat
deriving DecidableEq

/-- NaN test. -/
def pfIsNaN : PFloat → Bool
  | .nan => true
  | _ => false

/-- IEEE-style addition (as used by pandas rolling sums). -/
def pfAdd : PFloat → PFloat → PFloat
  | .nan, _ => .nan
  | _, .nan => .nan
  | .inf, .ninf => .nan
  | .ninf, .inf => .nan
  | .inf, _ => .inf
  | _, .inf => .inf
  | .ninf, _ => .ninf
  | _, .ninf => .ninf
  | .val a, .val b => .val (qadd a b)

/-- IEEE-style subtraction. -/
def pfSub : PFloat → PFloat → PFloat
  | .nan, _ => .nan
  | _, .nan => .nan
  | .inf, .inf => .nan
  | .ninf, .ninf => .nan
  | .inf, _ => .inf
  | .ninf, _ => .ninf
  | _, .inf => .ninf
  | _, .ninf => .inf
  | .val a, .val b => .val (qsub a b)

/-- IEEE-style division: `0/0 = nan`, `x/0 = ±inf` for `x ≠ 0`
(pandas semantics for Series division). -/
def pfDiv : PFloat → PFloat → PFloat
  | .nan, _ => .nan
  | _, .nan => .nan
  | .inf, .inf => .nan
  | .inf, .ninf => .nan
  | .ninf, .inf => .nan
  | .ninf, .ninf => .nan
  | .inf, .val b => if 0 ≤ b then .inf else .ninf
  | .ninf, .val b => if 0 ≤ b then .ninf else .inf
  | .val _, .inf => .val 0
  | .val _, .ninf => .val 0
  | .val a, .val b =>
    if b = 0 then
      if 0 < a then .inf
      else if a < 0 then .ninf
      else .nan
    else .val (qdiv a b)

/-- Division of a float by a count (rolling-mean divisor). -/
def pfDivNat : PFloat → ℕ → PFloat
  | .nan, _ => .nan
  | .inf, _ => .inf
  | .ninf, _ => .ninf
  | .val a, n => .val (qdiv a (qnat n))

/-- IEEE `<`: any comparison with NaN is false. -/
def pfLt : PFloat → PFloat → Bool
  | .nan, _ => false
  | _, .nan => false
  | .val a, .val b => decide (a < b)
  | .inf, _ => false
  | _, .inf => true
  | .ninf, .ninf => false
  | .ninf, _ => true
  | _, .ninf => false

/-- IEEE `>`: any comparison with NaN is false. -/
def pfGt : PFloat → PFloat → Bool
  | .nan, _ => false
  | _, .nan => false
  | .val a, .val b => decide (b < a)
  | .inf, .inf => false
  | .inf, _ => true
  | _, .inf => false
  | .ninf, _ => false
  | _, .ninf => true

/-- IEEE `==`: NaN is not equal to anything, including itself. -/
def pfEq : PFloat → PFloat → Bool
  | .nan, _ => false
  | _, .nan => false
  | .val a, .val b => decide (a = b)
  | .inf, .inf => true
  | .ninf, .ninf => true
  | _, _ => false

/-- Minimum of two non-NaN floats (NaN propagates; unreachable under the
rolling guards below). -/
def pfMin2 : PFloat → PFloat → PFloat
  | .nan, _ => .nan
  | _, .nan => .nan
  | .ninf, _ => .ninf
  | _, .ninf => .ninf
  | .val a, .val b => .val (qmin a b)
  | .inf, y => y
  | x, .inf => x

/-- Maximum of two non-NaN floats. -/
def pfMax2 : PFloat → PFloat → PFloat
  | .nan, _ => .nan
  | _, .nan => .nan
  | .inf, _ => .inf
  | _, .inf => .inf
  | .val a, .val b => .val (qmax a b)
  | .ninf, y => y
  | x, .ninf => x

/-- Round half to even (Python's `round` on an exact value).  The integer
division `q.num / q.den` is the floor of `q` (`Rat.floor_def`). -/
def rhalfeven (q : ℚ) : ℤ :=
  let f : ℤ := q.num / (q.den : ℤ)
  if qsub q (qint f) < mkRat 1 2 then f
  else if mkRat 1 2 < qsub q (qint f) then f + 1
  else if f % 2 = 0 then f else f + 1

/-- Python `round(q, n)`: round half to even at `n` decimal places. -/
def roundTo (n : ℕ) (q : ℚ) : ℚ :=
  mkRat (rhalfeven (qmul q (qint (Int.ofNat (Nat.pow 10 n))))) (Nat.pow 10 n)

/-- `round` lifted to floats: `round(nan, n) = nan`, `round(±inf, n) = ±inf`. -/
def pfRound (n : ℕ) : PFloat → PFloat
  | .nan => .nan
  | .inf => .inf
  | .ninf => .ninf
  | .val q => .val (roundTo n q)

/-- A pandas Series cell that held Python `None` becomes NaN. -/
def optP : Option PFloat → PFloat
  | some v => v
  | none => .nan

/-- Does `pat` occur at the start of the second list? (substring helper). -/
def startsWithL : List Char → List Char → Bool
  | [], _ => true
  | _ :: _, [] => false
  | a :: as, b :: bs => a == b && startsWithL as bs

/-- Does `pat` occur anywhere in the second list? (substring helper). -/
def containsL (pat : List Char) : List Char → Bool
  | [] => startsWithL pat []
  | c :: rest => startsWithL pat (c :: rest) || containsL pat rest

/-- Python's `needle in haystack` substring test. -/
def strContains (haystack needle : String) : Bool :=
  containsL needle.toList haystack.toList

/-- Trailing window ending at index `i` (inclusive) of width at most
`period`: the window pandas `rolling(window=period)` aggregates at `i`. -/
def windowAt (period : ℕ) (xs : List α) (i : ℕ) : List α :=
  (xs.take (i + 1)).drop (i + 1 - period)

/-- `Series.rolling(window=period, min_periods=1).mean()` on NaN-free data:
mean over an expanding-then-sliding window. -/
def rolling_mean_min1 (period : ℕ) (xs : List ℚ) : List ℚ :=
  (List.range xs.length).map (fun i =>
    let w := windowAt period xs i
    qdiv (w.foldl qadd 0) (qnat w.length))

/-- Cell of `Series.rolling(window=period).mean()` (default
`min_periods = period`): NaN until `period` cells exist or if the window
holds a NaN. -/
def rollingMeanAt (period : ℕ) (xs : List PFloat) (i : ℕ) : PFloat :=
  if i + 1 < period then .nan
  else
    let w := windowAt period xs i
    if w.any pfIsNaN then .nan
    else
      match w with
      | [] => .nan
      | h :: t => pfDivNat (t.foldl pfAdd h) (t.length + 1)

/-- `Series.rolling(window=period).mean()`. -/
def rollingMeanPF (period : ℕ) (xs : List PFloat) : List PFloat :=
  (List.range xs.length).map (fun i => rollingMeanAt period xs i)

/-- Cell of `Series.rolling(window=period).min()`. -/
def rollingMinAt (period : ℕ) (xs : List PFloat) (i : ℕ) : PFloat :=
  if i + 1 < period then .nan
  else
    let w := windowAt period xs i
    if w.any pfIsNaN then .nan
    else
      match w with
      | [] => .nan
      | h :: t => t.foldl pfMin2 h

/-- `Series.rolling(window=period).min()`. -/
def rollingMin (period : ℕ) (xs : List PFloat) : List PFloat :=
  (List.range xs.length).map (fun i => rollingMinAt period xs i)

/-- Cell of `Series.rolling(window=period).max()`. -/
def rollingMaxAt (period : ℕ) (xs : List PFloat) (i : ℕ) : PFloat :=
  if i + 1 < period then .nan
  else
    let w := windowAt period xs i
    if w.any pfIsNaN then .nan
    else
      match w with
      | [] => .nan
      | h :: t => t.foldl pfMax2 h

/-- `Series.rolling(window=period).max()`. -/
def rollingMax (period : ℕ) (xs : List PFloat) : List PFloat :=
  (List.range xs.length).map (fun i => rollingMaxAt period xs i)

/-- `pd.Series(prices).diff()` after the first element. -/
def diffsFrom (prev : ℚ) : List ℚ → List (Option ℚ)
  | [] => []
  | y :: t => some (qsub y prev) :: diffsFrom y t

/-- `pd.Series(prices).diff()`: leading NaN (modelled `none`), then
successive differences. -/
def diffs : List ℚ → List (Option ℚ)
  | [] => []
  | x :: rest => none :: diffsFrom x rest

/-- `delta.where(delta > 0, 0)`: the NaN head fails `> 0` and becomes 0. -/
def gainList (prices : List ℚ) : List ℚ :=
  (diffs prices).map (fun d =>
    match d with
    | some v => if 0 < v then v else 0
    | none => 0)

/-- `-delta.where(delta < 0, 0)`. -/
def lossList (prices : List ℚ) : List ℚ :=
  (diffs prices).map (fun d =>
    qneg (match d with
      | some v => if v < 0 then v else 0
      | none => 0))

/-- `gain.rolling(window=period, min_periods=1).mean()`. -/
def avgGainList (prices : List ℚ) (period : ℕ) : List ℚ :=
  rolling_mean_min1 period (gainList prices)

/-- `loss.rolling(window=period, min_periods=1).mean()`. -/
def avgLossList (prices : List ℚ) (period : ℕ) : List ℚ :=
  rolling_mean_min1 period (lossList prices)

/-- `rs = avg_gain / avg_loss` elementwise (pandas float division). -/
def rsList (prices : List ℚ) (period : ℕ) : List PFloat :=
  List.zipWith (fun g l => pfDiv (.val g) (.val l))
    (avgGainList prices period) (avgLossList prices period)

/-- `100 - 100 / (1 + rs)` on one float cell. -/
def rsiOfRs : PFloat → PFloat
  | .nan => .nan
  | .inf => .val 100
  | .ninf => .val 100
  | .val q => if qadd 1 q = 0 then .ninf else .val (qsub 100 (qdiv 100 (qadd 1 q)))

/-- The `rsi` Series of `calculate_rsi`. -/
def rsiList (prices : List ℚ) (period : ℕ) : List PFloat :=
  (rsList prices period).map rsiOfRs

/-- `calculate_rsi(prices, period)` from `src/main.py`: `None` when the
history is shorter than `period`, else the last cell of the RSI series. -/
def calculate_rsi (prices : List ℚ) (period : ℕ) : Option PFloat :=
  if prices.length < period then none
  else (rsiList prices period).getLast?

/-- `pd.Series([calculate_rsi(prices[:i+1], period) for i in range(len(prices))])`. -/
def rsiSeries (prices : List ℚ) (period : ℕ) : List PFloat :=
  (List.range prices.length).map
    (fun i => optP (calculate_rsi (prices.take (i + 1)) period))

/-- `(rsi_series - min_rsi) / (max_rsi - min_rsi)` in `calculate_stochrsi`. -/
def stochrsiRaw (prices : List ℚ) (period : ℕ) : List PFloat :=
  let rsi_series := rsiSeries prices period
  let min_rsi := rollingMin period rsi_series
  let max_rsi := rollingMax period rsi_series
  List.zipWith pfDiv
    (List.zipWith pfSub rsi_series min_rsi)
    (List.zipWith pfSub max_rsi min_rsi)

/-- `stochrsi.rolling(window=smoothK).mean()`. -/
def stochrsiKList (prices : List ℚ) (period smoothK : ℕ) : List PFloat :=
  rollingMeanPF smoothK (stochrsiRaw prices period)

/-- `stochrsi_k.rolling(window=smoothD).mean()`. -/
def stochrsiDList (prices : List ℚ) (period smoothK smoothD : ℕ) : List PFloat :=
  rollingMeanPF smoothD (stochrsiKList prices period smoothK)

/-- `calculate_stochrsi(prices, period, smoothK, smoothD)` from
`src/main.py`.  The Python function returns the pair `(None, None)` for a
short history and a pair of floats otherwise; this is modelled as
`Option (PFloat × PFloat)` since the two components are `None` together. -/
def calculate_stochrsi (prices : List ℚ) (period smoothK smoothD : ℕ) :
    Option (PFloat × PFloat) :=
  if prices.length < period then none
  else
    match (stochrsiKList prices period smoothK).getLast?,
        (stochrsiDList prices period smoothK smoothD).getLast? with
    | some kLast, some dLast => some (pfRound 2 kLast, pfRound 2 dLast)
    | _, _ => none

/-- One OHLC row as produced by `get_historical_klines`
(`entry[0]=open, entry[1]=high, entry[2]=low, entry[3]=close`). -/
structure Bar where
  o : ℚ
  h : ℚ
  l : ℚ
  c : ℚ
deriving DecidableEq

/-- Row-wise `max(axis=1)` over `[high_low, high_close, low_close]`:
pandas skips the NaN cells coming from the shifted close. -/
def rowMaxTR (hl : ℚ) (hc lc : Option ℚ) : ℚ :=
  match hc, lc with
  | some a, some b => qmax hl (qmax a b)
  | some a, none => qmax hl a
  | none, some b => qmax hl b
  | none, none => hl

/-- `close_prices.shift()`: leading NaN, previous close elsewhere. -/
def shiftOpt (xs : List ℚ) : List (Option ℚ) :=
  match xs with
  | [] => []
  | _ :: _ => none :: (xs.dropLast.map some)

/-- The `true_range` Series of `calculate_atr`. -/
def trueRangeList (prices : List Bar) : List ℚ :=
  let high_prices := prices.map (fun e => e.h)
  let low_prices := prices.map (fun e => e.l)
  let close_prices := prices.map (fun e => e.c)
  let high_low := List.zipWith (fun a b => qsub a b) high_prices low_prices
  let high_close := List.zipWith
    (fun hq c? => c?.map (fun cq => qabs (qsub hq cq))) high_prices (shiftOpt close_prices)
  let low_close := List.zipWith
    (fun lq c? => c?.map (fun cq => qabs (qsub lq cq))) low_prices (shiftOpt close_prices)
  List.zipWith (fun hl p => rowMaxTR hl p.1 p.2) high_low (high_close.zip low_close)

/-- `true_range.rolling(window=period).mean()`. -/
def atrList (prices : List Bar) (period : ℕ) : List PFloat :=
  rollingMeanPF period ((trueRangeList prices).map PFloat.val)

/-- `calculate_atr(prices, period)` from `src/main.py`. -/
def calculate_atr (prices : List Bar) (period : ℕ) : Option PFloat :=
  if prices.length < period then none
  else
    match (atrList prices period).getLast? with
    | some v => some (pfRound 5 v)
    | none => none

/-- The dictionary returned by `get_trade_signal`. -/
structure SignalSet where
  rsiSignal : String
  stochrsiSignal : String
  atrSignal : String
  estimatedTimeToHold : String
deriving DecidableEq

/-- `get_trade_signal(rsi, stochrsi_k, stochrsi_d, atr)` from `src/main.py`.
The thresholds 0.8, 0.2 and 0.002 are written `mkRat 8 10` etc. -/
def get_trade_signal (rsi stochrsi_k stochrsi_d atr : PFloat) : SignalSet :=
  let rsi_signal :=
    if pfGt rsi (.val 70) then "Overbought - Strong Sell"
    else if pfLt rsi (.val 30) then "Oversold - Strong Buy"
    else "Neutral"
  let stochrsi_signal :=
    if pfGt stochrsi_k (.val (mkRat 8 10)) then "Strong Sell"
    else if pfLt stochrsi_k (.val (mkRat 2 10)) then "Strong Buy"
    else if pfGt stochrsi_k stochrsi_d then "Buy"
    else "Sell"
  let volatility_signal :=
    if pfEq atr (.val 0) then "Sideways (Low volatility)"
    else if pfGt atr (.val (mkRat 2 1000)) then "High Volatility"
    else "Stable Market"
  let estimated_hold_time :=
    if strContains rsi_signal "Buy" || strContains stochrsi_signal "Buy" then
      "Hold for 1-3 days"
    else if strContains rsi_signal "Sell" || strContains stochrsi_signal "Sell" then
      "Exit within hours"
    else "Wait for a clear signal"
  ⟨rsi_signal, stochrsi_signal, volatility_signal, estimated_hold_time⟩

/-- The per-timeframe score of `analyze_best_timeframe` (lines 135-143). -/
def signal_strength (signals : SignalSet) : Int :=
  let s0 : Int := 0
  let s1 :=
    if strContains signals.rsiSignal "Strong Buy"
        || strContains signals.stochrsiSignal "Strong Buy" then s0 + 2 else s0
  let s2 :=
    if strContains signals.rsiSignal "Buy"
        || strContains signals.stochrsiSignal "Buy" then s1 + 1 else s1
  let s3 :=
    if strContains signals.rsiSignal "Strong Sell"
        || strContains signals.stochrsiSignal "Strong Sell" then s2 - 2 else s2
  let s4 :=
    if strContains signals.rsiSignal "Sell"
        || strContains signals.stochrsiSignal "Sell" then s3 - 1 else s3
  s4

/-- The fixed timeframe order of `analyze_best_timeframe`. -/
def timeframes : List String := ["15m", "1h", "4h", "1d"]

/-- The body of one loop iteration of `analyze_best_timeframe`, up to the
signal/score computation: `None` when the timeframe is skipped (fetch
failure, empty data, or an indicator that `is None`). -/
def procResult (fetch : String → Option (List Bar)) (timeframe : String) :
    Option (SignalSet × Int) :=
  match fetch timeframe with
  | none => none
  | some prices =>
    if prices.isEmpty then none
    else
      let closing_prices := prices.map (fun e => e.c)
      let rsi := calculate_rsi closing_prices 14
      let stochrsi := calculate_stochrsi closing_prices 14 3 3
      let atr := calculate_atr prices 14
      match rsi, stochrsi, atr with
      | some r, some (k, d), some a =>
        let signals := get_trade_signal r k d a
        some (signals, signal_strength signals)
      | _, _, _ => none

/-- Mutable state of the timeframe loop: best timeframe, best score, and
the `results` dictionary. -/
structure AnalyzeState where
  best_timeframe : Option String
  best_signal_strength : Int
  results : String → Option SignalSet

/-- One iteration of the `for timeframe in timeframes` loop. -/
def stepTimeframe (fetch : String → Option (List Bar)) (st : AnalyzeState)
    (timeframe : String) : AnalyzeState :=
  match procResult fetch timeframe with
  | none => st
  | some (signals, s) =>
    let results := fun k => if k = timeframe then some signals else st.results k
    if s > st.best_signal_strength then ⟨some timeframe, s, results⟩
    else ⟨st.best_timeframe, st.best_signal_strength, results⟩

/-- The whole loop. -/
def analyzeLoop (fetch : String → Option (List Bar)) :
    List String → AnalyzeState → AnalyzeState
  | [], st => st
  | tf :: rest, st => analyzeLoop fetch rest (stepTimeframe fetch st tf)

/-- `analyze_best_timeframe(crypto)` from `src/main.py`, with the network
fetch abstracted into `fetch : timeframe → data`.  Returns
`(best_timeframe, results)`. -/
def analyze_best_timeframe (fetch : String → Option (List Bar)) :
    Option String × (String → Option SignalSet) :=
  let final := analyzeLoop fetch timeframes ⟨none, -1, fun _ => none⟩
  (final.best_timeframe, final.results)

/-- The `(timeframe, score)` pairs of the non-skipped timeframes, in loop
order. -/
def procPairs (fetch : String → Option (List Bar)) (l : List String) :
    List (String × Int) :=
  l.filterMap (fun tf => (procResult fetch tf).map (fun r => (tf, r.2)))

/-- The non-skipped `(timeframe, score)` pairs of a whole run. -/
def processedPairs (fetch : String → Option (List Bar)) : List (String × Int) :=
  procPairs fetch timeframes

/-- Reference fold for the best-so-far accumulator: replace only on a
strictly greater score. -/
def bestFold : List (String × Int) → Option String × Int → Option String × Int
  | [], b => b
  | p :: t, b => bestFold t (if p.2 > b.2 then (some p.1, p.2) else b)

/-- Maximal score over the processed timeframes, seeded with the −1
sentinel. -/
def maxStrength (fetch : String → Option (List Bar)) : Int :=
  (processedPairs fetch).foldl (fun a p => max a p.2) (-1)

/-! Concrete inputs used in counterexamples and witnesses. -/

/-- A flat OHLC bar. -/
def flatBar : Bar := ⟨5, 5, 5, 5⟩

/-- 14 flat bars: enough history, but every indicator ratio is 0/0. -/
def flatBars : List Bar := List.replicate 14 flatBar

/-- The closes of `flatBars`. -/
def flatCloses : List ℚ := List.replicate 14 5

/-- A fetcher that returns the flat history on the first timeframe only. -/
def fetchFlat : String → Option (List Bar) :=
  fun tf => if tf = "15m" then some flatBars else none

/-- Strictly increasing closes: all gains, zero losses. -/
def incCloses : List ℚ := (List.range 14).map (fun i => (i : ℚ))

/-- A malformed bar with `high < low`. -/
def badBar : Bar := ⟨0, 0, 1, 0⟩

/-- An all-zero bar. -/
def zeroBar : Bar := ⟨0, 0, 0, 0⟩

/-- 14 bars whose first row has `high < low`: its true range is negative. -/
def badBars : List Bar := badBar :: List.replicate 13 zeroBar

/-- 5 bars: shorter than every indicator period. -/
def shortBars : List Bar := List.replicate 5 flatBar

/-- A fetcher that always returns the short history. -/
def fetchShort : String → Option (List Bar) := fun _ => some shortBars

/-- A 4-point close series on which StochRSI (period 2, smoothing 1) is
defined and equal to 1. -/
def wCloses : List ℚ := [0, 1, 0, 2]

/-- The SignalSet produced from the flat history: NaN rsi falls through to
"Neutral", NaN stochrsi falls through to "Sell", zero ATR gives
"Sideways (Low volatility)". -/
def flatSignals : SignalSet :=
  ⟨"Neutral", "Sell", "Sideways (Low volatility)", "Exit within hours"⟩

/-! ## The wrappers are the standard rational operations -/

theorem qnat_eq (n : ℕ) : qnat n = (n : ℚ) := by
  simp [qnat, Rat.mkRat_one]

theorem qint_eq (z : ℤ) : qint z = (z : ℚ) := by
  simp [qint, Rat.mkRat_one]

theorem qadd_eq (a b : ℚ) : qadd a b = a + b := by
  have hA : ((a.den : ℚ)) ≠ 0 := Nat.cast_ne_zero.mpr a.den_nz
  have hB : ((b.den : ℚ)) ≠ 0 := Nat.cast_ne_zero.mpr b.den_nz
  rw [qadd, Rat.mkRat_eq_divInt, Rat.divInt_eq_div]
  conv_rhs => rw [← Rat.num_div_den a, ← Rat.num_div_den b, div_add_div _ _ hA hB]
  push_cast
  ring_nf

theorem qneg_eq (a : ℚ) : qneg a = -a := by
  rw [qneg, Rat.mkRat_eq_divInt, Rat.divInt_eq_div]
  push_cast
  rw [neg_div, Rat.num_div_den]

theorem qsub_eq (a b : ℚ) : qsub a b = a - b := by
  rw [qsub, qadd_eq, qneg_eq, sub_eq_add_neg]

theorem qmul_eq (a b : ℚ) : qmul a b = a * b := by
  rw [qmul, Rat.mkRat_eq_divInt, Rat.divInt_eq_div]
  conv_rhs => rw [← Rat.num_div_den a, ← Rat.num_div_den b]
  push_cast
  rw [div_mul_div_comm]

theorem qdiv_eq (a b : ℚ) : qdiv a b = a / b := by
  rw [qdiv, Rat.mkRat_eq_divInt, Rat.div_def']
  rcases lt_trichotomy b.num 0 with hb | hb | hb
  · rw [Int.sign_eq_neg_one_of_neg hb]
    have hn : ((b.num.natAbs : ℕ) : ℤ) = -b.num := by omega
    rw [show ((a.den * b.num.natAbs : ℕ) : ℤ)
          = (a.den : ℤ) * ((b.num.natAbs : ℕ) : ℤ) by push_cast; ring, hn]
    rw [show a.num * (b.den : ℤ) * (-1) = (a.num * b.den) * (-1) by ring,
      show (a.den : ℤ) * -b.num = ((a.den : ℤ) * b.num) * (-1) by ring]
    exact Rat.divInt_mul_right (by norm_num)
  · rw [hb]
    simp
  · rw [Int.sign_eq_one_of_pos hb]
    have hn : ((b.num.natAbs : ℕ) : ℤ) = b.num := by omega
    rw [show ((a.den * b.num.natAbs : ℕ) : ℤ)
          = (a.den : ℤ) * ((b.num.natAbs : ℕ) : ℤ) by push_cast; ring, hn, mul_one]

theorem qmin_eq (a b : ℚ) : qmin a b = min a b := by
  unfold qmin
  split
  · exact (min_eq_left (by assumption)).symm
  · exact (min_eq_right (le_of_not_le (by assumption))).symm

theorem qmax_eq (a b : ℚ) : qmax a b = max a b := by
  unfold qmax
  split
  · exact (max_eq_right (by assumption)).symm
  · exact (max_eq_left (le_of_not_le (by assumption))).symm

theorem qabs_eq (a : ℚ) : qabs a = |a| := by
  unfold qabs
  split
  · rw [qneg_eq, abs_of_neg (by assumption)]
  · rw [abs_of_nonneg (le_of_not_lt (by assumption))]

/-! ## Basic PFloat lemmas -/

theorem pfSub_nan_right (x : PFloat) : pfSub x .nan = .nan := by
  cases x <;> rfl

theorem pfDiv_nan_right (x : PFloat) : pfDiv x .nan = .nan := by
  cases x <;> rfl

theorem pfIsNaN_eq_false_iff (x : PFloat) : pfIsNaN x = false ↔ x ≠ .nan := by
  cases x <;> simp [pfIsNaN]

/-! ## Window lemmas -/

theorem windowAt_subset (period : ℕ) (xs : List α) (i : ℕ) :
    windowAt period xs i ⊆ xs :=
  fun _ h => List.take_subset _ _ (List.drop_subset _ _ h)

theorem self_mem_windowAt {xs : List α} {i : ℕ} {x : α} {period : ℕ}
    (hx : xs[i]? = some x) (hp : 1 ≤ period) : x ∈ windowAt period xs i := by
  have hk : i + 1 - period + (i - (i + 1 - period)) = i := by omega
  have h1 : (windowAt period xs i)[i - (i + 1 - period)]? = some x := by
    unfold windowAt
    rw [List.getElem?_drop, hk, List.getElem?_take_of_lt (by omega)]
    exact hx
  exact List.getElem?_mem h1

theorem length_windowAt (period : ℕ) (xs : List α) (i : ℕ) (hi : i < xs.length)
    (hp : ¬ i + 1 < period) : (windowAt period xs i).length = period := by
  unfold windowAt
  rw [List.length_drop, List.length_take]
  omega

/-! ## Fold lemmas for PFloat aggregation -/

theorem foldl_pfMin2_val (t : List PFloat) : ∀ (q0 : ℚ),
    (∀ x ∈ t, ∃ q, x = .val q) →
    ∃ m, t.foldl pfMin2 (.val q0) = .val m ∧ m ≤ q0 ∧
      ∀ x ∈ t, ∀ q, x = .val q → m ≤ q := by
  induction t with
  | nil =>
    intro q0 _
    exact ⟨q0, rfl, le_refl _, by intro x hx; exact absurd hx (List.not_mem_nil x)⟩
  | cons y t ih =>
    intro q0 hall
    obtain ⟨q, hq⟩ := hall y (List.mem_cons_self y t)
    subst hq
    have hstep : pfMin2 (PFloat.val q0) (PFloat.val q) = .val (min q0 q) := by
      simp [pfMin2, qmin_eq]
    obtain ⟨m, hm, hm0, hmem⟩ :=
      ih (min q0 q) (fun x hx => hall x (List.mem_cons_of_mem _ hx))
    rw [List.foldl_cons, hstep]
    refine ⟨m, hm, le_trans hm0 (min_le_left _ _), ?_⟩
    intro x hx qx hqx
    rcases List.mem_cons.mp hx with h | h
    · subst h
      cases hqx
      exact le_trans hm0 (min_le_right _ _)
    · exact hmem x h qx hqx

theorem foldl_pfMax2_val (t : List PFloat) : ∀ (q0 : ℚ),
    (∀ x ∈ t, ∃ q, x = .val q) →
    ∃ m, t.foldl pfMax2 (.val q0) = .val m ∧ q0 ≤ m ∧
      ∀ x ∈ t, ∀ q, x = .val q → q ≤ m := by
  induction t with
  | nil =>
    intro q0 _
    exact ⟨q0, rfl, le_refl _, by intro x hx; exact absurd hx (List.not_mem_nil x)⟩
  | cons y t ih =>
    intro q0 hall
    obtain ⟨q, hq⟩ := hall y (List.mem_cons_self y t)
    subst hq
    have hstep : pfMax2 (PFloat.val q0) (PFloat.val q) = .val (max q0 q) := by
      simp [pfMax2, qmax_eq]
    obtain ⟨m, hm, hm0, hmem⟩ :=
      ih (max q0 q) (fun x hx => hall x (List.mem_cons_of_mem _ hx))
    rw [List.foldl_cons, hstep]
    refine ⟨m, hm, le_trans (le_max_left _ _) hm0, ?_⟩
    intro x hx qx hqx
    rcases List.mem_cons.mp hx with h | h
    · subst h
      cases hqx
      exact le_trans (le_max_right _ _) hm0
    · exact hmem x h qx hqx

theorem foldl_pfAdd_val (t : List PFloat) : ∀ (a : ℚ),
    (∀ x ∈ t, ∃ q, x = .val q) →
    ∃ s, t.foldl pfAdd (.val a) = .val s ∧
      ((∀ x ∈ t, ∀ q, x = .val q → 0 ≤ q) → a ≤ s) ∧
      ((∀ x ∈ t, ∀ q, x = .val q → q ≤ 1) → s ≤ a + t.length) := by
  induction t with
  | nil =>
    intro a _
    exact ⟨a, rfl, fun _ => le_refl _, fun _ => by simp⟩
  | cons y t ih =>
    intro a hall
    obtain ⟨q, hq⟩ := hall y (List.mem_cons_self y t)
    subst hq
    have hstep : pfAdd (PFloat.val a) (PFloat.val q) = .val (a + q) := by
      simp [pfAdd, qadd_eq]
    obtain ⟨s, hs, hlo, hhi⟩ :=
      ih (a + q) (fun x hx => hall x (List.mem_cons_of_mem _ hx))
    rw [List.foldl_cons, hstep]
    refine ⟨s, hs, ?_, ?_⟩
    · intro hnn
      have hq0 : 0 ≤ q := hnn _ (List.mem_cons_self _ t) q rfl
      have := hlo (fun x hx qx hqx => hnn x (List.mem_cons_of_mem _ hx) qx hqx)
      linarith
    · intro hub
      have hq1 : q ≤ 1 := hub _ (List.mem_cons_self _ t) q rfl
      have := hhi (fun x hx qx hqx => hub x (List.mem_cons_of_mem _ hx) qx hqx)
      simp only [List.length_cons]
      push_cast
      linarith

/-! ## Nonnegativity of the gain/loss pipeline -/

theorem mem_zipWith {f : α → β → γ} {as : List α} {bs : List β} {z : γ}
    (hz : z ∈ List.zipWith f as bs) : ∃ a ∈ as, ∃ b ∈ bs, z = f a b := by
  obtain ⟨i, hi⟩ := List.mem_iff_getElem?.mp hz
  obtain ⟨a, b, ha, hb, hab⟩ := List.getElem?_zipWith_eq_some.mp hi
  exact ⟨a, List.getElem?_mem ha, b, List.getElem?_mem hb, hab.symm⟩

theorem foldl_qadd_nonneg (t : List ℚ) : ∀ a, 0 ≤ a → (∀ x ∈ t, 0 ≤ x) →
    0 ≤ t.foldl qadd a := by
  induction t with
  | nil => intro a ha _; simpa using ha
  | cons y t ih =>
    intro a ha hall
    rw [List.foldl_cons, qadd_eq]
    exact ih (a + y) (by have := hall y (List.mem_cons_self y t); linarith)
      (fun x hx => hall x (List.mem_cons_of_mem _ hx))

theorem rolling_mean_min1_nonneg (period : ℕ) (xs : List ℚ)
    (h : ∀ x ∈ xs, 0 ≤ x) : ∀ y ∈ rolling_mean_min1 period xs, 0 ≤ y := by
  intro y hy
  obtain ⟨i, hi, rfl⟩ := List.mem_map.mp hy
  show 0 ≤ qdiv ((windowAt period xs i).foldl qadd 0) (qnat (windowAt period xs i).length)
  rw [qdiv_eq, qnat_eq]
  apply div_nonneg
  · exact foldl_qadd_nonneg _ 0 (le_refl 0) (fun x hx => h x (windowAt_subset _ _ _ hx))
  · exact Nat.cast_nonneg _

theorem gainList_nonneg (prices : List ℚ) : ∀ x ∈ gainList prices, 0 ≤ x := by
  intro x hx
  obtain ⟨d, _, rfl⟩ := List.mem_map.mp hx
  cases d with
  | none => exact le_refl 0
  | some v =>
    show (0:ℚ) ≤ if 0 < v then v else 0
    split
    · exact le_of_lt (by assumption)
    · exact le_refl 0

theorem lossList_nonneg (prices : List ℚ) : ∀ x ∈ lossList prices, 0 ≤ x := by
  intro x hx
  obtain ⟨d, _, rfl⟩ := List.mem_map.mp hx
  cases d with
  | none =>
    show (0:ℚ) ≤ qneg 0
    rw [qneg_eq]
    simp
  | some v =>
    show (0:ℚ) ≤ qneg (if v < 0 then v else 0)
    rw [qneg_eq]
    split
    · next hv => linarith
    · simp

/-! ## The RSI series is NaN or a value in [0, 100] -/

theorem rsList_good (prices : List ℚ) (period : ℕ) :
    ∀ x ∈ rsList prices period,
      x = .nan ∨ x = .inf ∨ ∃ q, x = .val q ∧ 0 ≤ q := by
  intro x hx
  obtain ⟨g, hg, l, hl, rfl⟩ := mem_zipWith hx
  have hg0 : 0 ≤ g := rolling_mean_min1_nonneg _ _ (gainList_nonneg prices) g hg
  have hl0 : 0 ≤ l := rolling_mean_min1_nonneg _ _ (lossList_nonneg prices) l hl
  by_cases hl' : l = 0
  · subst hl'
    by_cases hgp : 0 < g
    · right; left; simp [pfDiv, hgp]
    · left
      have hg0' : g = 0 := le_antisymm (not_lt.mp hgp) hg0
      subst hg0'
      simp [pfDiv]
  · right; right
    refine ⟨qdiv g l, by simp [pfDiv, hl'], ?_⟩
    rw [qdiv_eq]
    exact div_nonneg hg0 hl0

theorem rsiList_good (prices : List ℚ) (period : ℕ) :
    ∀ x ∈ rsiList prices period,
      x = .nan ∨ ∃ q, x = .val q ∧ 0 ≤ q ∧ q ≤ 100 := by
  intro x hx
  obtain ⟨y, hy, rfl⟩ := List.mem_map.mp hx
  rcases rsList_good prices period y hy with h | h | ⟨q, rfl, hq⟩
  · subst h; left; rfl
  · subst h; right; exact ⟨100, rfl, by norm_num, le_refl _⟩
  · right
    have h1 : (0:ℚ) < 1 + q := by linarith
    have h1' : qadd 1 q ≠ 0 := by rw [qadd_eq]; exact ne_of_gt h1
    refine ⟨qsub 100 (qdiv 100 (qadd 1 q)), by simp [rsiOfRs, h1'], ?_, ?_⟩
    · rw [qsub_eq, qdiv_eq, qadd_eq]
      have hle : 100 / (1 + q) ≤ 100 := div_le_self (by norm_num) (by linarith)
      linarith
    · rw [qsub_eq, qdiv_eq, qadd_eq]
      have h0 : (0:ℚ) ≤ 100 / (1 + q) := div_nonneg (by norm_num) (le_of_lt h1)
      linarith

theorem calculate_rsi_good {prices : List ℚ} {period : ℕ} {v : PFloat}
    (h : calculate_rsi prices period = some v) :
    v = .nan ∨ ∃ q, v = .val q ∧ 0 ≤ q ∧ q ≤ 100 := by
  unfold calculate_rsi at h
  split at h
  · exact absurd h (by simp)
  · exact rsiList_good prices period v (List.mem_of_getLast?_eq_some h)

theorem rsiSeries_good (prices : List ℚ) (period : ℕ) :
    ∀ x ∈ rsiSeries prices period,
      x = .nan ∨ ∃ q, x = .val q ∧ 0 ≤ q ∧ q ≤ 100 := by
  intro x hx
  obtain ⟨i, _, rfl⟩ := List.mem_map.mp hx
  cases hc : calculate_rsi (prices.take (i + 1)) period with
  | none => left; rfl
  | some v =>
    rcases calculate_rsi_good hc with h | ⟨q, hq, hq0, hq1⟩
    · left; exact h
    · right; exact ⟨q, hq, hq0, hq1⟩

/-! ## Indexing range-map series -/

theorem range_map_getElem_some {β : Type} {f : ℕ → β} {n i : ℕ} {b : β}
    (h : ((List.range n).map f)[i]? = some b) : i < n ∧ b = f i := by
  by_cases hin : i < n
  · rw [List.getElem?_map, List.getElem?_range hin] at h
    exact ⟨hin, (Option.some.inj h).symm⟩
  · rw [List.getElem?_eq_none (by simpa using Nat.le_of_not_lt hin)] at h
    exact absurd h (by simp)

theorem windowAt_period_pos {xs : List α} {period i : ℕ} {h0 : α} {t0 : List α}
    (hw : windowAt period xs i = h0 :: t0) : 1 ≤ period := by
  rcases Nat.eq_zero_or_pos period with hz | hpos
  · exfalso
    subst hz
    unfold windowAt at hw
    rw [Nat.sub_zero, List.drop_eq_nil_of_le (by
      calc (xs.take (i + 1)).length ≤ i + 1 := by
            rw [List.length_take]; omega)] at hw
    exact absurd hw (by simp)
  · exact hpos

/-! ## The raw StochRSI series is NaN or a value in [0, 1] -/

theorem stochrsiRaw_good (prices : List ℚ) (period : ℕ) :
    ∀ x ∈ stochrsiRaw prices period,
      x = .nan ∨ ∃ q, x = .val q ∧ 0 ≤ q ∧ q ≤ 1 := by
  intro x hx
  simp only [stochrsiRaw] at hx
  obtain ⟨i, hi⟩ := List.mem_iff_getElem?.mp hx
  obtain ⟨nu, de, hnu, hde, hxv⟩ := List.getElem?_zipWith_eq_some.mp hi
  obtain ⟨r, mn, hr, hmn, hnuv⟩ := List.getElem?_zipWith_eq_some.mp hnu
  obtain ⟨mx, mn2, hmx, hmn2, hdev⟩ := List.getElem?_zipWith_eq_some.mp hde
  obtain ⟨hilen, hmnv⟩ := range_map_getElem_some hmn
  obtain ⟨_, hmxv⟩ := range_map_getElem_some hmx
  obtain ⟨_, hmn2v⟩ := range_map_getElem_some hmn2
  have hmn2mn : mn = mn2 := by rw [hmnv, hmn2v]
  subst hxv hnuv hdev hmn2mn
  by_cases hp : i + 1 < period
  · left
    have hmnnan : mn = .nan := by rw [hmnv]; unfold rollingMinAt; rw [if_pos hp]
    rw [hmnnan, pfSub_nan_right, pfSub_nan_right]
    rfl
  · cases hany : (windowAt period (rsiSeries prices period) i).any pfIsNaN with
    | true =>
      left
      have hmnnan : mn = .nan := by
        rw [hmnv]
        unfold rollingMinAt
        rw [if_neg hp]
        simp only [hany, if_true]
      rw [hmnnan, pfSub_nan_right, pfSub_nan_right]
      rfl
    | false =>
      cases hw : windowAt period (rsiSeries prices period) i with
      | nil =>
        left
        have hmnnan : mn = .nan := by
          rw [hmnv]
          unfold rollingMinAt
          rw [if_neg hp]
          simp only [hany, hw]
          simp
        rw [hmnnan, pfSub_nan_right, pfSub_nan_right]
        rfl
      | cons h0 t0 =>
        have hp1 : 1 ≤ period := windowAt_period_pos hw
        rw [hw] at hany
        have hwin : ∀ y ∈ h0 :: t0, ∃ q, y = .val q := by
          intro y hy
          have hyr : y ∈ rsiSeries prices period :=
            windowAt_subset _ _ _ (show y ∈ windowAt period (rsiSeries prices period) i by
              rw [hw]; exact hy)
          rcases rsiSeries_good prices period y hyr with hnan | ⟨q, hq, _⟩
          · exfalso
            have := List.any_eq_false.mp hany y hy
            rw [hnan] at this
            exact this rfl
          · exact ⟨q, hq⟩
        obtain ⟨q0, hq0⟩ := hwin h0 (List.mem_cons_self _ _)
        subst hq0
        have hmne : mn = t0.foldl pfMin2 (.val q0) := by
          rw [hmnv]
          unfold rollingMinAt
          rw [if_neg hp]
          simp only [hw, hany]
          simp
        have hmxe : mx = t0.foldl pfMax2 (.val q0) := by
          rw [hmxv]
          unfold rollingMaxAt
          rw [if_neg hp]
          simp only [hw, hany]
          simp
        have htvals : ∀ y ∈ t0, ∃ q, y = .val q :=
          fun y hy => hwin y (List.mem_cons_of_mem _ hy)
        obtain ⟨qm, hqm, hqm0, hqmmem⟩ := foldl_pfMin2_val t0 q0 htvals
        obtain ⟨qM, hqM, hqM0, hqMmem⟩ := foldl_pfMax2_val t0 q0 htvals
        have hrwin : r ∈ (PFloat.val q0) :: t0 := by
          rw [← hw]
          exact self_mem_windowAt hr hp1
        obtain ⟨qr, hqr⟩ := hwin r hrwin
        subst hqr
        have hqmr : qm ≤ qr := by
          rcases List.mem_cons.mp hrwin with h | h
          · rw [(PFloat.val.injEq _ _).mp h]
            exact hqm0
          · exact hqmmem _ h qr rfl
        have hqrM : qr ≤ qM := by
          rcases List.mem_cons.mp hrwin with h | h
          · rw [(PFloat.val.injEq _ _).mp h]
            exact hqM0
          · exact hqMmem _ h qr rfl
        rw [hmne, hqm, hmxe, hqM]
        show pfDiv (.val (qsub qr qm)) (.val (qsub qM qm)) = .nan ∨ _
        by_cases hden : qsub qM qm = 0
        · left
          have hqMm : qM = qm := by
            rw [qsub_eq] at hden
            linarith
          have hnum : qsub qr qm = 0 := by
            rw [qsub_eq]
            have : qr = qm := le_antisymm (hqMm ▸ hqrM) hqmr
            linarith
          rw [hnum, hden]
          simp [pfSub, pfDiv]
        · right
          refine ⟨qdiv (qsub qr qm) (qsub qM qm), by simp [pfSub, pfDiv, hden], ?_, ?_⟩
          · rw [qdiv_eq, qsub_eq, qsub_eq]
            have hd : (0:ℚ) < qM - qm := by
              rw [qsub_eq] at hden
              rcases lt_or_eq_of_le (le_trans hqmr hqrM) with h | h
              · linarith
              · exact absurd (by linarith : qM - qm = 0) hden
            exact div_nonneg (by linarith) (le_of_lt hd)
          · rw [qdiv_eq, qsub_eq, qsub_eq]
            have hd : (0:ℚ) < qM - qm := by
              rw [qsub_eq] at hden
              rcases lt_or_eq_of_le (le_trans hqmr hqrM) with h | h
              · linarith
              · exact absurd (by linarith : qM - qm = 0) hden
            rw [div_le_one hd]
            linarith

/-! ## Rolling means of bounded series -/

theorem rollingMeanAt_good (period : ℕ) (xs : List PFloat) (i : ℕ)
    (h0 : ∀ x ∈ xs, x = .nan ∨ ∃ q, x = .val q ∧ 0 ≤ q ∧ q ≤ 1) :
    rollingMeanAt period xs i = .nan ∨
      ∃ q, rollingMeanAt period xs i = .val q ∧ 0 ≤ q ∧ q ≤ 1 := by
  by_cases hp : i + 1 < period
  · left; unfold rollingMeanAt; rw [if_pos hp]
  cases hany : (windowAt period xs i).any pfIsNaN with
  | true =>
    left
    unfold rollingMeanAt
    rw [if_neg hp]
    simp only [hany, if_true]
  | false =>
    cases hw : windowAt period xs i with
    | nil =>
      left
      unfold rollingMeanAt
      rw [if_neg hp]
      simp only [hany, hw]
      simp
    | cons h t =>
      rw [hw] at hany
      have hwin : ∀ y ∈ h :: t, ∃ q, y = .val q ∧ 0 ≤ q ∧ q ≤ 1 := by
        intro y hy
        have hyr : y ∈ xs := windowAt_subset _ _ _ (by rw [hw]; exact hy)
        rcases h0 y hyr with hnan | hq
        · exfalso
          have := List.any_eq_false.mp hany y hy
          rw [hnan] at this
          exact this rfl
        · exact hq
      obtain ⟨q0, hq0, hq00, hq01⟩ := hwin h (List.mem_cons_self _ _)
      subst hq0
      have hvals : ∀ x ∈ t, ∃ q, x = .val q :=
        fun x hx => ⟨(hwin x (List.mem_cons_of_mem _ hx)).choose,
          (hwin x (List.mem_cons_of_mem _ hx)).choose_spec.1⟩
      obtain ⟨s, hs, hlo, hhi⟩ := foldl_pfAdd_val t q0 hvals
      have hbound : ∀ x ∈ t, ∀ q, x = .val q → 0 ≤ q ∧ q ≤ 1 := by
        intro x hx q hq
        obtain ⟨q', hq', hb0, hb1⟩ := hwin x (List.mem_cons_of_mem _ hx)
        rw [hq] at hq'
        cases (PFloat.val.injEq _ _).mp hq'
        exact ⟨hb0, hb1⟩
      have hlo' : q0 ≤ s := hlo (fun x hx q hq => (hbound x hx q hq).1)
      have hhi' : s ≤ q0 + t.length := hhi (fun x hx q hq => (hbound x hx q hq).2)
      right
      refine ⟨qdiv s (qnat (t.length + 1)), ?_, ?_, ?_⟩
      · unfold rollingMeanAt
        rw [if_neg hp]
        simp only [hw, hany]
        rw [if_neg (by simp)]
        rw [hs]
        rfl
      · rw [qdiv_eq, qnat_eq]
        apply div_nonneg (by linarith) (by positivity)
      · rw [qdiv_eq, qnat_eq]
        rw [div_le_one (by positivity)]
        push_cast
        linarith

theorem rollingMeanPF_good (period : ℕ) (xs : List PFloat)
    (h0 : ∀ x ∈ xs, x = .nan ∨ ∃ q, x = .val q ∧ 0 ≤ q ∧ q ≤ 1) :
    ∀ y ∈ rollingMeanPF period xs,
      y = .nan ∨ ∃ q, y = .val q ∧ 0 ≤ q ∧ q ≤ 1 := by
  intro y hy
  obtain ⟨i, _, rfl⟩ := List.mem_map.mp hy
  exact rollingMeanAt_good period xs i h0

theorem rollingMeanAt_nonneg (period : ℕ) (xs : List PFloat) (i : ℕ)
    (h0 : ∀ x ∈ xs, ∃ q, x = .val q ∧ 0 ≤ q) :
    rollingMeanAt period xs i = .nan ∨
      ∃ q, rollingMeanAt period xs i = .val q ∧ 0 ≤ q := by
  by_cases hp : i + 1 < period
  · left; unfold rollingMeanAt; rw [if_pos hp]
  cases hany : (windowAt period xs i).any pfIsNaN with
  | true =>
    left
    unfold rollingMeanAt
    rw [if_neg hp]
    simp only [hany, if_true]
  | false =>
    cases hw : windowAt period xs i with
    | nil =>
      left
      unfold rollingMeanAt
      rw [if_neg hp]
      simp only [hany, hw]
      simp
    | cons h t =>
      rw [hw] at hany
      have hwin : ∀ y ∈ h :: t, ∃ q, y = .val q ∧ 0 ≤ q := by
        intro y hy
        exact h0 y (windowAt_subset _ _ _ (by rw [hw]; exact hy))
      obtain ⟨q0, hq0, hq00⟩ := hwin h (List.mem_cons_self _ _)
      subst hq0
      have hvals : ∀ x ∈ t, ∃ q, x = .val q :=
        fun x hx => ⟨(hwin x (List.mem_cons_of_mem _ hx)).choose,
          (hwin x (List.mem_cons_of_mem _ hx)).choose_spec.1⟩
      obtain ⟨s, hs, hlo, _⟩ := foldl_pfAdd_val t q0 hvals
      have hlo' : q0 ≤ s := hlo (fun x hx q hq => by
        obtain ⟨q', hq', hb0⟩ := hwin x (List.mem_cons_of_mem _ hx)
        rw [hq] at hq'
        cases (PFloat.val.injEq _ _).mp hq'
        exact hb0)
      right
      refine ⟨qdiv s (qnat (t.length + 1)), ?_, ?_⟩
      · unfold rollingMeanAt
        rw [if_neg hp]
        simp only [hw, hany]
        rw [if_neg (by simp)]
        rw [hs]
        rfl
      · rw [qdiv_eq, qnat_eq]
        apply div_nonneg (by linarith) (by positivity)

/-! ## Bounds for half-even rounding -/

theorem mkRat_one_two : (mkRat 1 2 : ℚ) = 1/2 := by
  rw [Rat.mkRat_eq_divInt, Rat.divInt_eq_div]
  norm_num

theorem rhalfeven_nonneg {q : ℚ} (h : 0 ≤ q) : 0 ≤ rhalfeven q := by
  have hf : 0 ≤ q.num / (q.den : ℤ) :=
    Int.ediv_nonneg (Rat.num_nonneg.mpr h) (by positivity)
  simp only [rhalfeven]
  split
  · exact hf
  split
  · omega
  split
  · exact hf
  · omega

theorem rhalfeven_le {q : ℚ} {B : ℤ} (h : q ≤ (B : ℚ)) : rhalfeven q ≤ B := by
  have hfloor : q.num / (q.den : ℤ) = ⌊q⌋ := (Rat.floor_def).symm
  have hfB : ⌊q⌋ ≤ B := by
    have := Int.floor_le_floor h
    rwa [Int.floor_intCast] at this
  have hqf : (⌊q⌋ : ℚ) ≤ q := Int.floor_le q
  have hstep : ∀ hcond : ¬ qsub q (qint ⌊q⌋) < mkRat 1 2,
      ⌊q⌋ + 1 ≤ B := by
    intro hcond
    rw [qsub_eq, qint_eq, mkRat_one_two] at hcond
    have hgt : (⌊q⌋ : ℚ) + 1/2 ≤ q := by
      have := not_lt.mp hcond
      linarith
    have : (⌊q⌋ : ℚ) < (B : ℚ) := lt_of_lt_of_le (by linarith) h
    have : ⌊q⌋ < B := by exact_mod_cast this
    omega
  simp only [rhalfeven, hfloor]
  split
  · exact hfB
  · next hcond =>
    split
    · exact hstep hcond
    · split
      · exact hfB
      · exact hstep hcond

theorem roundTo_nonneg (n : ℕ) {q : ℚ} (h : 0 ≤ q) : 0 ≤ roundTo n q := by
  unfold roundTo
  rw [Rat.mkRat_eq_divInt, Rat.divInt_eq_div]
  apply div_nonneg
  · have h1 : 0 ≤ rhalfeven (qmul q (qint (Int.ofNat (Nat.pow 10 n)))) := by
      apply rhalfeven_nonneg
      rw [qmul_eq, qint_eq]
      exact mul_nonneg h (by
        simp only [Int.ofNat_eq_coe, Nat.pow_eq]
        push_cast
        positivity)
    exact_mod_cast h1
  · have hN : 0 < Nat.pow 10 n := by
      simp only [Nat.pow_eq]
      exact pow_pos (by norm_num) n
    have : (0:ℚ) < (((Nat.pow 10 n : ℕ) : ℤ) : ℚ) := by exact_mod_cast hN
    linarith

theorem roundTo_le_one (n : ℕ) {q : ℚ} (h : q ≤ 1) : roundTo n q ≤ 1 := by
  unfold roundTo
  rw [Rat.mkRat_eq_divInt, Rat.divInt_eq_div]
  have hN : 0 < Nat.pow 10 n := by
    simp only [Nat.pow_eq]
    exact pow_pos (by norm_num) n
  have hB : rhalfeven (qmul q (qint (Int.ofNat (Nat.pow 10 n)))) ≤ ((Nat.pow 10 n : ℕ) : ℤ) := by
    apply rhalfeven_le
    rw [qmul_eq, qint_eq]
    have hc : (0:ℚ) ≤ ((Int.ofNat (Nat.pow 10 n) : ℤ) : ℚ) := by
      simp only [Int.ofNat_eq_coe, Nat.pow_eq]
      push_cast
      positivity
    calc q * ((Int.ofNat (Nat.pow 10 n) : ℤ) : ℚ)
        ≤ 1 * ((Int.ofNat (Nat.pow 10 n) : ℤ) : ℚ) := mul_le_mul_of_nonneg_right h hc
      _ = ((Int.ofNat (Nat.pow 10 n) : ℤ) : ℚ) := one_mul _
      _ = (((Nat.pow 10 n : ℕ) : ℤ) : ℚ) := by
        simp only [Int.ofNat_eq_coe]
  have hpow : (0:ℚ) < (((Nat.pow 10 n : ℕ) : ℤ) : ℚ) := by exact_mod_cast hN
  rw [div_le_one hpow]
  exact_mod_cast hB

/-! ## True range is nonnegative on well-formed bars -/

theorem zipWith_map_same (f : β → β → γ) (g g' : α → β) (xs : List α) :
    List.zipWith f (xs.map g) (xs.map g') = xs.map (fun x => f (g x) (g' x)) := by
  induction xs with
  | nil => rfl
  | cons x t ih => simp [ih]

theorem trueRangeList_nonneg (prices : List Bar) (h : ∀ b ∈ prices, b.l ≤ b.h) :
    ∀ x ∈ trueRangeList prices, 0 ≤ x := by
  intro x hx
  simp only [trueRangeList] at hx
  obtain ⟨hl, hhl, p, _, rfl⟩ := mem_zipWith hx
  rw [zipWith_map_same] at hhl
  obtain ⟨b, hb, rfl⟩ := List.mem_map.mp hhl
  have hb0 : 0 ≤ qsub b.h b.l := by
    rw [qsub_eq]
    have := h b hb
    linarith
  rcases p with ⟨hc, lc⟩
  rcases hc with _ | a
  · rcases lc with _ | c
    · simpa [rowMaxTR] using hb0
    · simp only [rowMaxTR, qmax_eq]
      exact le_trans hb0 (le_max_left _ _)
  · rcases lc with _ | c
    · simp only [rowMaxTR, qmax_eq]
      exact le_trans hb0 (le_max_left _ _)
    · simp only [rowMaxTR, qmax_eq]
      exact le_trans hb0 (le_max_left _ _)

theorem atrList_nonneg (prices : List Bar) (period : ℕ)
    (h : ∀ b ∈ prices, b.l ≤ b.h) :
    ∀ x ∈ atrList prices period, x = .nan ∨ ∃ q, x = .val q ∧ 0 ≤ q := by
  intro x hx
  obtain ⟨i, _, rfl⟩ := List.mem_map.mp hx
  apply rollingMeanAt_nonneg
  intro y hy
  obtain ⟨q, hq, rfl⟩ := List.mem_map.mp hy
  exact ⟨q, rfl, trueRangeList_nonneg prices h q hq⟩

/-! ## The timeframe loop as a fold -/

theorem stepTimeframe_none {fetch : String → Option (List Bar)} {st : AnalyzeState}
    {tf : String} (h : procResult fetch tf = none) :
    stepTimeframe fetch st tf = st := by
  unfold stepTimeframe
  rw [h]

theorem stepTimeframe_some {fetch : String → Option (List Bar)} {st : AnalyzeState}
    {tf : String} {sig : SignalSet} {s : Int} (h : procResult fetch tf = some (sig, s)) :
    stepTimeframe fetch st tf =
      if s > st.best_signal_strength
      then ⟨some tf, s, fun k => if k = tf then some sig else st.results k⟩
      else ⟨st.best_timeframe, st.best_signal_strength,
        fun k => if k = tf then some sig else st.results k⟩ := by
  unfold stepTimeframe
  rw [h]

theorem procPairs_cons (fetch : String → Option (List Bar)) (tf : String)
    (t : List String) :
    procPairs fetch (tf :: t) =
      match procResult fetch tf with
      | none => procPairs fetch t
      | some r => (tf, r.2) :: procPairs fetch t := by
  unfold procPairs
  rw [List.filterMap_cons]
  cases procResult fetch tf <;> rfl

theorem analyzeLoop_best (fetch : String → Option (List Bar)) :
    ∀ (l : List String) (st : AnalyzeState),
    ((analyzeLoop fetch l st).best_timeframe,
      (analyzeLoop fetch l st).best_signal_strength)
      = bestFold (procPairs fetch l) (st.best_timeframe, st.best_signal_strength) := by
  intro l
  induction l with
  | nil => intro st; rfl
  | cons tf t ih =>
    intro st
    rw [analyzeLoop, procPairs_cons]
    cases hp : procResult fetch tf with
    | none =>
      rw [stepTimeframe_none hp]
      exact ih st
    | some r =>
      obtain ⟨sig, sc⟩ := r
      rw [stepTimeframe_some hp, bestFold]
      by_cases hgt : sc > st.best_signal_strength
      · rw [if_pos hgt, if_pos hgt]
        exact ih _
      · rw [if_neg hgt, if_neg hgt]
        exact ih _

theorem analyzeLoop_results (fetch : String → Option (List Bar)) :
    ∀ (l : List String) (st : AnalyzeState) (tf : String),
    (analyzeLoop fetch l st).results tf =
      match procResult fetch tf with
      | some r => if tf ∈ l then some r.1 else st.results tf
      | none => st.results tf := by
  intro l
  induction l with
  | nil =>
    intro st tf
    cases procResult fetch tf <;> simp [analyzeLoop]
  | cons tf' t ih =>
    intro st tf
    rw [analyzeLoop]
    cases hp' : procResult fetch tf' with
    | none =>
      rw [stepTimeframe_none hp']
      rw [ih st tf]
      cases hp : procResult fetch tf with
      | none => rfl
      | some r =>
        dsimp only
        by_cases htf : tf = tf'
        · exfalso
          rw [htf, hp'] at hp
          exact absurd hp (by simp)
        · by_cases hmem : tf ∈ t
          · rw [if_pos hmem, if_pos (List.mem_cons_of_mem _ hmem)]
          · rw [if_neg hmem, if_neg (by simp [List.mem_cons, htf, hmem])]
    | some r' =>
      obtain ⟨sig', sc'⟩ := r'
      rw [stepTimeframe_some hp']
      rw [ih _ tf]
      have hres' : (if sc' > st.best_signal_strength
          then (⟨some tf', sc',
            fun k => if k = tf' then some sig' else st.results k⟩ : AnalyzeState)
          else ⟨st.best_timeframe, st.best_signal_strength,
            fun k => if k = tf' then some sig' else st.results k⟩).results tf
          = if tf = tf' then some sig' else st.results tf := by
        split <;> rfl
      cases hp : procResult fetch tf with
      | none =>
        dsimp only
        rw [hres']
        by_cases htf : tf = tf'
        · exfalso
          rw [htf, hp'] at hp
          exact absurd hp (by simp)
        · rw [if_neg htf]
      | some r =>
        dsimp only
        by_cases htf : tf = tf'
        · have hr : (sig', sc') = r := by
            rw [htf, hp'] at hp
            exact Option.some.inj hp
          by_cases hmem : tf ∈ t
          · rw [if_pos hmem, if_pos (by rw [htf]; exact List.mem_cons_self _ _)]
          · rw [if_neg hmem, hres', if_pos htf,
              if_pos (by rw [htf]; exact List.mem_cons_self _ _), ← hr]
        · by_cases hmem : tf ∈ t
          · rw [if_pos hmem, if_pos (List.mem_cons_of_mem _ hmem)]
          · rw [if_neg hmem, hres', if_neg htf,
              if_neg (by simp [List.mem_cons, htf, hmem])]

/-! ## The best-so-far fold selects the first maximal score -/

theorem le_foldl_max (l : List (String × Int)) :
    ∀ s : Int, s ≤ l.foldl (fun a p => max a p.2) s := by
  induction l with
  | nil => intro s; exact le_refl s
  | cons p t ih =>
    intro s
    exact le_trans (le_max_left s p.2) (ih (max s p.2))

theorem mem_le_foldl_max (l : List (String × Int)) :
    ∀ (s : Int) (p : String × Int), p ∈ l →
      p.2 ≤ l.foldl (fun a p => max a p.2) s := by
  induction l with
  | nil => intro s p hp; exact absurd hp (List.not_mem_nil p)
  | cons q t ih =>
    intro s p hp
    rcases List.mem_cons.mp hp with h | h
    · subst h
      rw [List.foldl_cons]
      exact le_trans (le_max_right s p.2) (le_foldl_max t _)
    · rw [List.foldl_cons]
      exact ih _ p h

theorem bestFold_snd (l : List (String × Int)) : ∀ b : Option String × Int,
    (bestFold l b).2 = l.foldl (fun a p => max a p.2) b.2 := by
  induction l with
  | nil => intro b; rfl
  | cons p t ih =>
    intro b
    rw [bestFold, List.foldl_cons]
    by_cases h : p.2 > b.2
    · rw [if_pos h, ih, max_eq_right (le_of_lt h)]
    · rw [if_neg h, ih, max_eq_left (not_lt.mp h)]

theorem bestFold_stay (l : List (String × Int)) : ∀ b : Option String × Int,
    (∀ p ∈ l, p.2 ≤ b.2) → bestFold l b = b := by
  induction l with
  | nil => intro b _; rfl
  | cons p t ih =>
    intro b h
    rw [bestFold, if_neg (not_lt.mpr (h p (List.mem_cons_self p t)))]
    exact ih b (fun q hq => h q (List.mem_cons_of_mem _ hq))

theorem bestFold_find (l : List (String × Int)) : ∀ b : Option String × Int,
    b.2 < (bestFold l b).2 →
    (bestFold l b).1
      = (l.find? (fun p => p.2 == (bestFold l b).2)).map Prod.fst := by
  induction l with
  | nil => intro b h; exact absurd h (lt_irrefl _)
  | cons p t ih =>
    intro b h
    rw [bestFold] at h ⊢
    by_cases hp : p.2 > b.2
    · rw [if_pos hp] at h ⊢
      by_cases hall : ∀ q ∈ t, q.2 ≤ p.2
      · have hstay : bestFold t (some p.1, p.2) = (some p.1, p.2) :=
          bestFold_stay t _ hall
        rw [hstay]
        rw [List.find?_cons_of_pos _ (by simp)]
        rfl
      · push_neg at hall
        obtain ⟨q, hq, hq2⟩ := hall
        have hlt : p.2 < (bestFold t (some p.1, p.2)).2 := by
          rw [bestFold_snd]
          exact lt_of_lt_of_le hq2 (mem_le_foldl_max t p.2 q hq)
        rw [ih (some p.1, p.2) hlt]
        rw [List.find?_cons_of_neg _ (by simp; exact ne_of_lt hlt)]
    · rw [if_neg hp] at h ⊢
      rw [ih b h]
      have hne : p.2 ≠ (bestFold t b).2 :=
        ne_of_lt (lt_of_le_of_lt (not_lt.mp hp) h)
      rw [List.find?_cons_of_neg _ (by simp [hne])]

theorem getLast?_zipWith_eq {α β γ : Type} (f : α → β → γ) (as : List α)
    (bs : List β) (hlen : as.length = bs.length) {a : α} {b : β}
    (ha : as.getLast? = some a) (hb : bs.getLast? = some b) :
    (List.zipWith f as bs).getLast? = some (f a b) := by
  rw [List.getLast?_eq_getElem?] at ha hb ⊢
  rw [List.length_zipWith, hlen, Nat.min_self]
  rw [hlen] at ha
  exact List.getElem?_zipWith_eq_some.mpr ⟨a, b, ha, hb, rfl⟩

/-! ## Claims -/

/-- C1 (amended): the score of a SignalSet with
`rsiSignal = "Oversold - Strong Buy"` and `stochrsiSignal = "Buy"` is `+3`,
not `+4`: the `+1` bucket tests the two signals with a single `or`, so the
"Buy" occurring in both signals still adds `+1` only once
(`+2` Strong Buy, `+1` Buy). -/
theorem C1_score_strong_buy_plus_buy (v h : String) :
    signal_strength ⟨"Oversold - Strong Buy", "Buy", v, h⟩ = 3 := by
  rfl

/-- C1, counterexample to the original claim: the score of the
Strong-Buy/Buy SignalSet is `3`, and `3 ≠ 4`. -/
theorem C1_cex_score_is_three_not_four :
    signal_strength
        ⟨"Oversold - Strong Buy", "Buy", "Stable Market", "Hold for 1-3 days"⟩ = 3
      ∧ (3 : Int) ≠ 4 := by
  exact ⟨by decide, by decide⟩

/-- C2 (amended): a timeframe is skipped (nothing recorded in `results`)
when one of the three indicators returns Python `None` — but only `None`
is checked: NaN is not an absence the loop tests for. -/
theorem C2_skip_on_none_indicator (fetch : String → Option (List Bar))
    (tf : String)
    (h : ∀ prices, fetch tf = some prices → ¬ prices.isEmpty →
      calculate_rsi (prices.map (fun e => e.c)) 14 = none
      ∨ calculate_stochrsi (prices.map (fun e => e.c)) 14 3 3 = none
      ∨ calculate_atr prices 14 = none) :
    (analyze_best_timeframe fetch).2 tf = none := by
  have hproc : procResult fetch tf = none := by
    unfold procResult
    cases hf : fetch tf with
    | none => rfl
    | some prices =>
      dsimp only
      by_cases he : prices.isEmpty
      · rw [if_pos he]
      · rw [if_neg he]
        rcases h prices hf he with h1 | h1 | h1 <;> (split <;> simp_all)
  show (analyzeLoop fetch timeframes ⟨none, -1, fun _ => none⟩).results tf = none
  rw [analyzeLoop_results fetch timeframes _ tf, hproc]

/-- C2, witness: a five-bar history makes all three indicators `None`,
and the timeframe is indeed skipped. -/
theorem C2_skip_on_none_indicator_applied :
    (analyze_best_timeframe fetchShort).2 "15m" = none := by
  apply C2_skip_on_none_indicator
  intro prices hp _
  left
  have h2 : shortBars = prices := Option.some.inj hp
  subst h2
  decide

/-- C2, counterexample to the original claim: on a flat price history the
RSI indicator is NaN (absent as a number but not Python `None`), yet the
timeframe is not skipped — a SignalSet is recorded for it. -/
theorem C2_cex_nan_not_skipped :
    calculate_rsi flatCloses 14 = some PFloat.nan
      ∧ (analyze_best_timeframe fetchFlat).2 "15m" ≠ none := by
  exact ⟨by decide, by decide⟩

/-- C3 (amended): when the final average loss is exactly `0` and the final
average gain is strictly positive, `calculate_rsi` returns exactly `100`
(the division yields `+inf` and `100 - 100/(1+inf) = 100`).  The strict
positivity is needed: a flat series has gain `0` as well, `0/0` is NaN,
and the result is NaN, not `100`. -/
theorem C3_rsi_saturates_at_100 (prices : List ℚ) (period : ℕ) (g : ℚ)
    (hlen : period ≤ prices.length)
    (hloss : (avgLossList prices period).getLast? = some 0)
    (hgain : (avgGainList prices period).getLast? = some g)
    (hgpos : 0 < g) :
    calculate_rsi prices period = some (PFloat.val 100) := by
  unfold calculate_rsi
  rw [if_neg (not_lt.mpr hlen)]
  unfold rsiList
  rw [List.getLast?_map]
  unfold rsList
  have hlenEq : (avgGainList prices period).length
      = (avgLossList prices period).length := by
    simp [avgGainList, avgLossList, rolling_mean_min1, gainList, lossList]
  rw [getLast?_zipWith_eq _ _ _ hlenEq hgain hloss]
  simp [pfDiv, hgpos, rsiOfRs]

/-- C3, witness: strictly increasing closes `0,1,…,13` have final average
loss `0` and final average gain `13/14 > 0`, and the RSI is `100`. -/
theorem C3_rsi_saturates_at_100_applied :
    calculate_rsi incCloses 14 = some (PFloat.val 100) :=
  C3_rsi_saturates_at_100 incCloses 14 (mkRat 13 14) (by decide) (by decide)
    (by decide) (by decide)

/-- C3, counterexample to the original claim: a flat series has final
average loss `0`, but the RSI is NaN (`0/0`), not `100`. -/
theorem C3_cex_flat_series_rsi_nan :
    (avgLossList flatCloses 14).getLast? = some 0
      ∧ calculate_rsi flatCloses 14 = some PFloat.nan
      ∧ PFloat.nan ≠ PFloat.val 100 := by
  exact ⟨by decide, by decide, by decide⟩

/-- C4: on any history strictly shorter than the period, all three
indicator functions return `None` (modelled `none`; total functions, so no
exception is possible). -/
theorem C4_short_history_none (closes : List ℚ) (bars : List Bar)
    (period smoothK smoothD : ℕ)
    (hc : closes.length < period) (hb : bars.length < period) :
    calculate_rsi closes period = none
      ∧ calculate_stochrsi closes period smoothK smoothD = none
      ∧ calculate_atr bars period = none :=
  ⟨by unfold calculate_rsi; rw [if_pos hc],
    by unfold calculate_stochrsi; rw [if_pos hc],
    by unfold calculate_atr; rw [if_pos hb]⟩

/-- C4, witness: three closes and five bars against period 14. -/
theorem C4_short_history_none_applied :
    calculate_rsi [(1 : ℚ), 2, 3] 14 = none
      ∧ calculate_stochrsi [(1 : ℚ), 2, 3] 14 3 3 = none
      ∧ calculate_atr shortBars 14 = none :=
  C4_short_history_none [(1 : ℚ), 2, 3] shortBars 14 3 3 (by decide) (by decide)

/-- C5: the best timeframe is replaced only on a strictly greater score,
starting from the −1 sentinel: the final best timeframe is `none` when no
processed timeframe scores above −1, and otherwise it is the first
processed timeframe (in the fixed order) achieving the maximal score. -/
theorem C5_first_max_selected (fetch : String → Option (List Bar)) :
    (analyze_best_timeframe fetch).1 =
      if -1 < maxStrength fetch then
        ((processedPairs fetch).find?
          (fun p => p.2 == maxStrength fetch)).map Prod.fst
      else none := by
  have hLB := analyzeLoop_best fetch timeframes ⟨none, -1, fun _ => none⟩
  have h1 : (analyze_best_timeframe fetch).1
      = (bestFold (processedPairs fetch) (none, -1)).1 := congrArg Prod.fst hLB
  rw [h1]
  have hsnd : (bestFold (processedPairs fetch) (none, -1)).2 = maxStrength fetch := by
    rw [bestFold_snd]
    rfl
  by_cases hm : -1 < maxStrength fetch
  · rw [if_pos hm]
    have hlt : ((none, -1) : Option String × Int).2
        < (bestFold (processedPairs fetch) (none, -1)).2 := by
      rw [hsnd]
      exact hm
    rw [bestFold_find (processedPairs fetch) (none, -1) hlt, hsnd]
  · rw [if_neg hm]
    have hall : ∀ p ∈ processedPairs fetch,
        p.2 ≤ ((none, -1) : Option String × Int).2 := by
      intro p hp
      exact le_trans (mem_le_foldl_max (processedPairs fetch) (-1) p hp)
        (not_lt.mp hm)
    rw [bestFold_stay _ _ hall]

/-- C6: whenever `calculate_rsi` returns a real value, that value lies in
the closed interval `[0, 100]`. -/
theorem C6_rsi_bounded (prices : List ℚ) (period : ℕ) (q : ℚ)
    (h : calculate_rsi prices period = some (PFloat.val q)) :
    0 ≤ q ∧ q ≤ 100 := by
  rcases calculate_rsi_good h with hnan | ⟨q2, hq2, h0, h1⟩
  · exact absurd hnan (by simp)
  · injection hq2 with hq3
    subst hq3
    exact ⟨h0, h1⟩

/-- C6, witness: strictly increasing closes give RSI exactly 100. -/
theorem C6_rsi_bounded_applied : (0 : ℚ) ≤ 100 ∧ (100 : ℚ) ≤ 100 :=
  C6_rsi_bounded incCloses 14 100 (by decide)

/-- C7: whenever `calculate_stochrsi` returns real components, each lies
in `[0, 1]` and equals its underlying rolling-mean cell rounded to 2
decimal places (round half to even, as Python `round`). -/
theorem C7_stochrsi_bounded_rounded (prices : List ℚ)
    (period smoothK smoothD : ℕ) (kp dp : PFloat)
    (h : calculate_stochrsi prices period smoothK smoothD = some (kp, dp)) :
    (∀ qk, kp = PFloat.val qk → (0 ≤ qk ∧ qk ≤ 1) ∧
        ∃ m, (stochrsiKList prices period smoothK).getLast?
            = some (PFloat.val m) ∧ qk = roundTo 2 m)
      ∧ (∀ qd, dp = PFloat.val qd → (0 ≤ qd ∧ qd ≤ 1) ∧
        ∃ m, (stochrsiDList prices period smoothK smoothD).getLast?
            = some (PFloat.val m) ∧ qd = roundTo 2 m) := by
  have hkGood : ∀ y ∈ stochrsiKList prices period smoothK,
      y = .nan ∨ ∃ q, y = .val q ∧ 0 ≤ q ∧ q ≤ 1 :=
    rollingMeanPF_good smoothK _ (stochrsiRaw_good prices period)
  have hdGood : ∀ y ∈ stochrsiDList prices period smoothK smoothD,
      y = .nan ∨ ∃ q, y = .val q ∧ 0 ≤ q ∧ q ≤ 1 :=
    rollingMeanPF_good smoothD _ hkGood
  unfold calculate_stochrsi at h
  split at h
  · exact absurd h (by simp)
  · split at h
    · rename_i kLast dLast hk hd
      have hkp : pfRound 2 kLast = kp := congrArg Prod.fst (Option.some.inj h)
      have hdp : pfRound 2 dLast = dp := congrArg Prod.snd (Option.some.inj h)
      constructor
      · intro qk hqk
        rw [← hkp] at hqk
        rcases hkGood kLast (List.mem_of_getLast?_eq_some hk)
          with hnan | ⟨m, hm, hm0, hm1⟩
        · rw [hnan] at hqk
          exact absurd hqk (by simp [pfRound])
        · rw [hm] at hqk hk
          have hqm : roundTo 2 m = qk := (PFloat.val.injEq _ _).mp hqk
          exact ⟨⟨hqm ▸ roundTo_nonneg 2 hm0, hqm ▸ roundTo_le_one 2 hm1⟩,
            m, hk, hqm.symm⟩
      · intro qd hqd
        rw [← hdp] at hqd
        rcases hdGood dLast (List.mem_of_getLast?_eq_some hd)
          with hnan | ⟨m, hm, hm0, hm1⟩
        · rw [hnan] at hqd
          exact absurd hqd (by simp [pfRound])
        · rw [hm] at hqd hd
          have hqm : roundTo 2 m = qd := (PFloat.val.injEq _ _).mp hqd
          exact ⟨⟨hqm ▸ roundTo_nonneg 2 hm0, hqm ▸ roundTo_le_one 2 hm1⟩,
            m, hd, hqm.symm⟩
    · exact absurd h (by simp)

/-- C7, witness: closes `0,1,0,2` with period 2 and smoothing 1 give
%K = 1, which is in `[0,1]` and equals its rolling-mean cell rounded. -/
theorem C7_stochrsi_bounded_rounded_applied :
    ((0 : ℚ) ≤ 1 ∧ (1 : ℚ) ≤ 1)
      ∧ ∃ m, (stochrsiKList wCloses 2 1).getLast? = some (PFloat.val m)
        ∧ (1 : ℚ) = roundTo 2 m :=
  (C7_stochrsi_bounded_rounded wCloses 2 1 1 (PFloat.val 1) (PFloat.val 1)
    (by decide)).1 1 rfl

/-- C8 (amended): when every bar has `low ≤ high`, a real ATR value is
non-negative and equals the final rolling mean of true range rounded to 5
decimal places.  The hypothesis is needed: an inverted bar (`high < low`)
gives a negative true range and a negative ATR. -/
theorem C8_atr_nonneg_rounded (bars : List Bar) (period : ℕ) (v : PFloat)
    (hbar : ∀ b ∈ bars, b.l ≤ b.h)
    (h : calculate_atr bars period = some v) :
    ∀ q, v = PFloat.val q →
      0 ≤ q ∧ ∃ m, (atrList bars period).getLast? = some (PFloat.val m)
        ∧ q = roundTo 5 m := by
  intro q hq
  unfold calculate_atr at h
  split at h
  · exact absurd h (by simp)
  · split at h
    · rename_i u hu
      have hv : pfRound 5 u = v := Option.some.inj h
      rcases atrList_nonneg bars period hbar u (List.mem_of_getLast?_eq_some hu)
        with hnan | ⟨m, hm, hm0⟩
      · rw [hnan] at hv
        rw [← hv] at hq
        exact absurd hq.symm (by simp [pfRound])
      · rw [hm] at hv hu
        rw [← hv] at hq
        have hqm : roundTo 5 m = q := (PFloat.val.injEq _ _).mp hq
        exact ⟨hqm ▸ roundTo_nonneg 5 hm0, m, hu, hqm.symm⟩
    · exact absurd h (by simp)

/-- C8, witness: fourteen flat bars give ATR 0, the rounded final rolling
mean. -/
theorem C8_atr_nonneg_rounded_applied :
    (0 : ℚ) ≤ 0 ∧ ∃ m, (atrList flatBars 14).getLast? = some (PFloat.val m)
      ∧ (0 : ℚ) = roundTo 5 m :=
  C8_atr_nonneg_rounded flatBars 14 (PFloat.val 0) (by decide) (by decide) 0 rfl

/-- C8, counterexample to the original claim: a history whose first bar is
inverted (`high < low`) makes `calculate_atr` return a strictly negative
value, so a defined ATR is not non-negative in general. -/
theorem C8_cex_negative_atr :
    (∃ b ∈ badBars, b.h < b.l)
      ∧ calculate_atr badBars 14 = some (PFloat.val (mkRat (-7143) 100000))
      ∧ mkRat (-7143) 100000 < 0 := by
  exact ⟨⟨badBar, by decide, by decide⟩, by decide, by decide⟩

/-- C9: every threshold comparison of `get_trade_signal` is strict, so
boundary inputs resolve to the non-extreme branch: rsi = 70 and rsi = 30
give "Neutral"; %K = 0.8 and %K = 0.2 skip the Strong branches and fall to
the K-vs-D comparison; atr = 0.002 gives "Stable Market"; atr = 0 gives
"Sideways (Low volatility)". -/
theorem C9_boundary_non_extreme (r k d a : PFloat) :
    (get_trade_signal (PFloat.val 70) k d a).rsiSignal = "Neutral"
      ∧ (get_trade_signal (PFloat.val 30) k d a).rsiSignal = "Neutral"
      ∧ (get_trade_signal r (PFloat.val (mkRat 8 10)) d a).stochrsiSignal
          = (if pfGt (PFloat.val (mkRat 8 10)) d then "Buy" else "Sell")
      ∧ (get_trade_signal r (PFloat.val (mkRat 2 10)) d a).stochrsiSignal
          = (if pfGt (PFloat.val (mkRat 2 10)) d then "Buy" else "Sell")
      ∧ (get_trade_signal r k d (PFloat.val (mkRat 2 1000))).atrSignal
          = "Stable Market"
      ∧ (get_trade_signal r k d (PFloat.val 0)).atrSignal
          = "Sideways (Low volatility)" := by
  exact ⟨rfl, rfl, rfl, rfl, rfl, rfl⟩

/-- C10: `get_trade_signal` is total on NaN inputs and classifies them by
fall-through — NaN rsi gives "Neutral", NaN %K/%D give "Sell" — and such
NaNs actually reach the classifier: a flat history has NaN RSI, yet the
loop (which only checks for `None`) records the all-NaN classification. -/
theorem C10_nan_falls_through :
    (∀ k d a, (get_trade_signal PFloat.nan k d a).rsiSignal = "Neutral")
      ∧ (∀ r a, (get_trade_signal r PFloat.nan PFloat.nan a).stochrsiSignal
          = "Sell")
      ∧ calculate_rsi flatCloses 14 = some PFloat.nan
      ∧ (analyze_best_timeframe fetchFlat).2 "15m"
          = some (get_trade_signal PFloat.nan PFloat.nan PFloat.nan (PFloat.val 0)) := by
  exact ⟨fun k d a => rfl, fun r a => rfl, by decide, by decide⟩
